import Mathlib

/-!
Verification of the consensus core of the rust-garlicoin library.

The repository sources embedded here are `src/consensus/params.rs` (the
per-network consensus parameter table and the difficulty adjustment
interval), together with the module wiring in `src/consensus/mod.rs` which
re-exports the free functions `serialize` and `deserialize` of the codec
framework.  The codec implementation (`consensus/encode.rs`), the `Network`
enumeration (`network/constants.rs`) and the `Uint256` type (`util/uint.rs`)
are declared and used by these files but their sources are not part of the
excerpt, so they are modelled from the specification.
-/

namespace Garlicoin

/-- A byte, as carried by the wire format. -/
abbrev Byte := Fin 256

/-- Modelled from the spec: `consensus/encode.rs` is missing from the
excerpt.  Little-endian fixed-width serialization of a natural number into
`w` bytes, least significant byte first, as the spec requires for all
primitive integer encodings. -/
def serLE : Nat → Nat → List Byte
  | 0, _ => []
  | w + 1, n => ⟨n % 256, Nat.mod_lt _ (by decide)⟩ :: serLE w (n / 256)

/-- Modelled from the spec: little-endian fixed-width decoding of `w` bytes
from the front of a byte stream, returning the value and the remaining
bytes, or failing when the source is exhausted mid-field. -/
def deserLE : Nat → List Byte → Option (Nat × List Byte)
  | 0, bs => some (0, bs)
  | _ + 1, [] => none
  | w + 1, b :: bs =>
    match deserLE w bs with
    | some (n, rest) => some (b.val + 256 * n, rest)
    | none => none

/-- Modelled from the spec: the variable-width "compact size" encoding used
for length prefixes: 1 byte for values below 0xFD, and 3/5/9-byte forms
introduced by the escape markers 0xFD/0xFE/0xFF for larger values. -/
def serCS (n : Nat) : List Byte :=
  if h : n < 0xFD then [⟨n, by omega⟩]
  else if n ≤ 0xFFFF then ⟨0xFD, by decide⟩ :: serLE 2 n
  else if n ≤ 0xFFFFFFFF then ⟨0xFE, by decide⟩ :: serLE 4 n
  else ⟨0xFF, by decide⟩ :: serLE 8 n

/-- Modelled from the spec: decoding of a "compact size" prefix from the
front of a byte stream. -/
def deserCS : List Byte → Option (Nat × List Byte)
  | [] => none
  | b :: rest =>
    if b.val < 0xFD then some (b.val, rest)
    else if b.val = 0xFD then deserLE 2 rest
    else if b.val = 0xFE then deserLE 4 rest
    else deserLE 8 rest

/-- A fixed-width unsigned integer field of `w` bytes (covering the Rust
`u8`, `u16`, `u32`, `u64` consensus encodings at `w` = 1, 2, 4, 8). -/
structure FixedInt (w : Nat) where
  val : Nat
deriving DecidableEq, Repr

/-- A value carried in "compact size" form. -/
structure CompactSize where
  val : Nat
deriving DecidableEq, Repr

/-- A variable-length byte string, serialized with a compact-size length
prefix followed by the raw bytes. -/
structure ByteVec where
  data : List Byte
deriving DecidableEq, Repr

/-- Modelled from the spec: the `Encodable` capability contract of
`consensus/encode.rs` — encode a value to a byte sequence; encoding is
total over constructible values. -/
class Encodable (α : Type) where
  enc : α → List Byte

/-- Modelled from the spec: the `Decodable` capability contract of
`consensus/encode.rs` — decode a value from the front of a byte sequence,
returning the value and the unconsumed remainder, or a decoding failure. -/
class Decodable (α : Type) where
  dec : List Byte → Option (α × List Byte)

/-- Encoder for fixed-width little-endian integers. -/
def FixedInt.enc {w : Nat} (v : FixedInt w) : List Byte := serLE w v.val

/-- Decoder for fixed-width little-endian integers. -/
def FixedInt.dec (w : Nat) (bs : List Byte) : Option (FixedInt w × List Byte) :=
  (deserLE w bs).map fun p => (⟨p.1⟩, p.2)

instance (w : Nat) : Encodable (FixedInt w) := ⟨FixedInt.enc⟩

instance (w : Nat) : Decodable (FixedInt w) := ⟨FixedInt.dec w⟩

/-- Encoder for compact-size values. -/
def CompactSize.enc (v : CompactSize) : List Byte := serCS v.val

/-- Decoder for compact-size values. -/
def CompactSize.dec (bs : List Byte) : Option (CompactSize × List Byte) :=
  (deserCS bs).map fun p => (⟨p.1⟩, p.2)

instance : Encodable CompactSize := ⟨CompactSize.enc⟩

instance : Decodable CompactSize := ⟨CompactSize.dec⟩

/-- Encoder for length-prefixed byte strings. -/
def ByteVec.enc (v : ByteVec) : List Byte := serCS v.data.length ++ v.data

/-- Decoder for length-prefixed byte strings; fails when the prefix claims
more bytes than remain in the source. -/
def ByteVec.dec (bs : List Byte) : Option (ByteVec × List Byte) :=
  match deserCS bs with
  | some (n, rest) =>
    if n ≤ rest.length then some (⟨rest.take n⟩, rest.drop n) else none
  | none => none

instance : Encodable ByteVec := ⟨ByteVec.enc⟩

instance : Decodable ByteVec := ⟨ByteVec.dec⟩

/-- Modelled from the spec: the free function `serialize` exported by
`consensus/mod.rs` — serialize a value to a byte sequence through its
`Encodable` capability. -/
def serialize {α : Type} [Encodable α] (v : α) : List Byte := Encodable.enc v

/-- Modelled from the spec: the free function `deserialize` exported by
`consensus/mod.rs` — decode a value from a byte sequence through its
`Decodable` capability, failing if the sequence is not consumed entirely. -/
def deserialize {α : Type} [Decodable α] (bs : List Byte) : Option α :=
  match Decodable.dec (α := α) bs with
  | some (v, rest) => if rest = [] then some v else none
  | none => none

/-- Modelled from the spec: the `Network` enumeration of
`network/constants.rs` is missing from the excerpt; the spec fixes it as
the closed set of chain variants mainnet (Garlicoin), Testnet and Regtest,
exactly the variants matched by `Params::new`. -/
inductive Network where
  | Garlicoin
  | Testnet
  | Regtest
deriving DecidableEq, Repr

/-- Modelled from the spec: the `Uint256` type of `util/uint.rs` is missing
from the excerpt; the spec fixes it as an unsigned integer of exactly 256
bits stored as four 64-bit limbs, most-significant limb first in the public
constant literals.  `limb0` is the first (most significant) limb of a
literal. -/
structure Uint256 where
  limb0 : Nat
  limb1 : Nat
  limb2 : Nat
  limb3 : Nat
deriving DecidableEq, Repr

/-- Numeric value of a `Uint256`, reading the limbs most-significant
first. -/
def Uint256.toNat (u : Uint256) : Nat :=
  ((u.limb0 * 2 ^ 64 + u.limb1) * 2 ^ 64 + u.limb2) * 2 ^ 64 + u.limb3

/-- Lowest possible difficulty for Mainnet (`params.rs`). -/
def MAX_BITS_BITCOIN : Uint256 :=
  ⟨0x00000fffffffffff, 0xffffffffffffffff, 0xffffffffffffffff, 0xffffffffffffffff⟩

/-- Lowest possible difficulty for Testnet (`params.rs`). -/
def MAX_BITS_TESTNET : Uint256 :=
  ⟨0x00000fffffffffff, 0xffffffffffffffff, 0xffffffffffffffff, 0xffffffffffffffff⟩

/-- Lowest possible difficulty for Regtest (`params.rs`). -/
def MAX_BITS_REGTEST : Uint256 :=
  ⟨0x7fffffffffffffff, 0xffffffffffffffff, 0xffffffffffffffff, 0xffffffffffffffff⟩

/-- Parameters that influence chain consensus (`params.rs`). -/
structure Params where
  network : Network
  bip16_time : Nat
  bip34_height : Nat
  bip65_height : Nat
  bip66_height : Nat
  rule_change_activation_threshold : Nat
  miner_confirmation_window : Nat
  pow_limit : Uint256
  pow_target_spacing : Nat
  pow_target_timespan : Nat
  allow_min_difficulty_blocks : Bool
  no_pow_retargeting : Bool
deriving DecidableEq, Repr

/-- Creates the parameter set for the given network (`Params::new` in
`params.rs`), matching exhaustively over the three network variants. -/
def Params.new (network : Network) : Params :=
  match network with
  | Network.Garlicoin =>
    { network := Network.Garlicoin
      bip16_time := 1333238400
      bip34_height := 0
      bip65_height := 0
      bip66_height := 0
      rule_change_activation_threshold := 6048
      miner_confirmation_window := 8064
      pow_limit := MAX_BITS_BITCOIN
      pow_target_spacing := 40
      pow_target_timespan := 60 * 60
      allow_min_difficulty_blocks := false
      no_pow_retargeting := false }
  | Network.Testnet =>
    { network := Network.Testnet
      bip16_time := 1333238400
      bip34_height := 76
      bip65_height := 76
      bip66_height := 76
      rule_change_activation_threshold := 1512
      miner_confirmation_window := 2016
      pow_limit := MAX_BITS_TESTNET
      pow_target_spacing := 40
      pow_target_timespan := 60 * 60
      allow_min_difficulty_blocks := true
      no_pow_retargeting := false }
  | Network.Regtest =>
    { network := Network.Regtest
      bip16_time := 1333238400
      bip34_height := 100000000
      bip65_height := 1351
      bip66_height := 1251
      rule_change_activation_threshold := 108
      miner_confirmation_window := 144
      pow_limit := MAX_BITS_REGTEST
      pow_target_spacing := 60
      pow_target_timespan := 14 * 24 * 6 * 60
      allow_min_difficulty_blocks := true
      no_pow_retargeting := true }

/-- Calculates the number of blocks between difficulty adjustments
(`Params::difficulty_adjustment_interval` in `params.rs`), derived from
the stored timespan and spacing by unsigned integer division. -/
def Params.difficulty_adjustment_interval (p : Params) : Nat :=
  p.pow_target_timespan / p.pow_target_spacing

/-- Fixed-width little-endian decoding undoes fixed-width encoding and
leaves the trailing bytes untouched. -/
theorem serLE_roundtrip (w : Nat) : ∀ (n : Nat) (rest : List Byte), n < 256 ^ w →
    deserLE w (serLE w n ++ rest) = some (n, rest) := by
  induction w with
  | zero =>
    intro n rest h
    have hn : n = 0 := by omega
    subst hn
    simp [serLE, deserLE]
  | succ w ih =>
    intro n rest h
    rw [pow_succ] at h
    have hdiv : n / 256 < 256 ^ w := (Nat.div_lt_iff_lt_mul (by norm_num)).mpr h
    have step : deserLE (w + 1) (serLE (w + 1) n ++ rest) =
        match deserLE w (serLE w (n / 256) ++ rest) with
        | some (m, r) => some (n % 256 + 256 * m, r)
        | none => none := rfl
    rw [step, ih (n / 256) rest hdiv]
    show some (n % 256 + 256 * (n / 256), rest) = some (n, rest)
    rw [Nat.mod_add_div n 256]

/-- A value produced by fixed-width decoding of `w` bytes fits in `w`
bytes. -/
theorem deserLE_lt (w : Nat) : ∀ (bs : List Byte) (n : Nat) (rest : List Byte),
    deserLE w bs = some (n, rest) → n < 256 ^ w := by
  induction w with
  | zero =>
    intro bs n rest h
    simp only [deserLE, Option.some.injEq, Prod.mk.injEq] at h
    omega
  | succ w ih =>
    intro bs n rest h
    cases bs with
    | nil => simp [deserLE] at h
    | cons b t =>
      simp only [deserLE] at h
      cases hd : deserLE w t with
      | none => rw [hd] at h; simp at h
      | some p =>
        obtain ⟨m, r⟩ := p
        rw [hd] at h
        simp only [Option.some.injEq, Prod.mk.injEq] at h
        have hm := ih t m r hd
        have hb := b.isLt
        rw [pow_succ]
        omega

/-- Compact-size decoding undoes compact-size encoding and leaves the
trailing bytes untouched, for any value in the 64-bit domain. -/
theorem serCS_roundtrip (n : Nat) (rest : List Byte) (h : n < 2 ^ 64) :
    deserCS (serCS n ++ rest) = some (n, rest) := by
  unfold serCS
  split_ifs with h1 h2 h3
  · simp [deserCS, h1]
  · have h2' : n < 256 ^ 2 := by norm_num; omega
    simpa [deserCS] using serLE_roundtrip 2 n rest h2'
  · have h3' : n < 256 ^ 4 := by norm_num; omega
    simpa [deserCS] using serLE_roundtrip 4 n rest h3'
  · have h4' : n < 256 ^ 8 := by norm_num at h ⊢; omega
    simpa [deserCS] using serLE_roundtrip 8 n rest h4'

/-- A value produced by compact-size decoding fits in 64 bits. -/
theorem deserCS_lt (bs : List Byte) (n : Nat) (rest : List Byte)
    (h : deserCS bs = some (n, rest)) : n < 2 ^ 64 := by
  cases bs with
  | nil => simp [deserCS] at h
  | cons b t =>
    simp only [deserCS] at h
    split_ifs at h with h1 h2 h3
    · simp only [Option.some.injEq, Prod.mk.injEq] at h
      omega
    · have := deserLE_lt 2 t n rest h
      norm_num at this ⊢
      omega
    · have := deserLE_lt 4 t n rest h
      norm_num at this ⊢
      omega
    · have := deserLE_lt 8 t n rest h
      norm_num at this ⊢
      omega

/-- If full decoding of the stream with no remainder succeeds, so does
`deserialize`. -/
theorem deserialize_of_dec {α : Type} [Decodable α] {bs : List Byte} {v : α}
    (h : Decodable.dec bs = some (v, ([] : List Byte))) : deserialize bs = some v := by
  unfold deserialize
  rw [h]
  simp

/-- A successful `deserialize` came from a decode that consumed the whole
stream. -/
theorem dec_of_deserialize {α : Type} [Decodable α] {bs : List Byte} {v : α}
    (h : deserialize bs = some v) : Decodable.dec bs = some (v, ([] : List Byte)) := by
  unfold deserialize at h
  cases hd : Decodable.dec (α := α) bs with
  | none => rw [hd] at h; simp at h
  | some p =>
    obtain ⟨w, rest⟩ := p
    rw [hd] at h
    by_cases hr : rest = []
    · subst hr
      simp at h
      subst h
      rfl
    · simp [hr] at h

/-- Round trip for fixed-width integer fields of any byte width. -/
theorem fixedInt_roundtrip (w : Nat) (bs : List Byte) (v : FixedInt w)
    (h : deserialize bs = some v) : deserialize (serialize v) = some v := by
  have hd : FixedInt.dec w bs = some (v, []) := dec_of_deserialize h
  unfold FixedInt.dec at hd
  cases hLE : deserLE w bs with
  | none => rw [hLE] at hd; simp at hd
  | some p =>
    obtain ⟨n, rest⟩ := p
    rw [hLE] at hd
    simp only [Option.map_some', Option.some.injEq, Prod.mk.injEq] at hd
    obtain ⟨hv, hrest⟩ := hd
    have hval : v.val = n := by rw [← hv]
    have hn := deserLE_lt w bs n rest hLE
    apply deserialize_of_dec
    show FixedInt.dec w (FixedInt.enc v) = some (v, [])
    have hrt := serLE_roundtrip w n [] hn
    rw [List.append_nil] at hrt
    unfold FixedInt.dec FixedInt.enc
    rw [hval, hrt]
    simp [← hv]

/-- Round trip for compact-size fields. -/
theorem compactSize_roundtrip (bs : List Byte) (v : CompactSize)
    (h : deserialize bs = some v) : deserialize (serialize v) = some v := by
  have hd : CompactSize.dec bs = some (v, []) := dec_of_deserialize h
  unfold CompactSize.dec at hd
  cases hCS : deserCS bs with
  | none => rw [hCS] at hd; simp at hd
  | some p =>
    obtain ⟨n, rest⟩ := p
    rw [hCS] at hd
    simp only [Option.map_some', Option.some.injEq, Prod.mk.injEq] at hd
    obtain ⟨hv, hrest⟩ := hd
    have hval : v.val = n := by rw [← hv]
    have hn := deserCS_lt bs n rest hCS
    apply deserialize_of_dec
    show CompactSize.dec (CompactSize.enc v) = some (v, [])
    have hrt := serCS_roundtrip n [] hn
    rw [List.append_nil] at hrt
    unfold CompactSize.dec CompactSize.enc
    rw [hval, hrt]
    simp [← hv]

/-- Round trip for length-prefixed byte strings. -/
theorem byteVec_roundtrip (bs : List Byte) (v : ByteVec)
    (h : deserialize bs = some v) : deserialize (serialize v) = some v := by
  have hd : ByteVec.dec bs = some (v, []) := dec_of_deserialize h
  unfold ByteVec.dec at hd
  cases hCS : deserCS bs with
  | none =>
    rw [hCS] at hd
    exact Option.noConfusion hd
  | some p =>
    obtain ⟨n, rest⟩ := p
    rw [hCS] at hd
    have hd' : (if n ≤ rest.length
        then some ((⟨rest.take n⟩ : ByteVec), rest.drop n) else none) = some (v, []) := hd
    split_ifs at hd' with hle
    · simp only [Option.some.injEq, Prod.mk.injEq] at hd'
      obtain ⟨hv, hdrop⟩ := hd'
      have hbound := deserCS_lt bs n rest hCS
      have hlen : v.data.length < 2 ^ 64 := by
        rw [← hv]
        simp only [List.length_take]
        omega
      apply deserialize_of_dec
      show ByteVec.dec (ByteVec.enc v) = some (v, [])
      unfold ByteVec.dec ByteVec.enc
      rw [serCS_roundtrip v.data.length v.data hlen]
      simp

/-- C1: for every value producible by decoding a consensus data type —
fixed-width little-endian integers of any byte width (covering u8, u16,
u32, u64), compact-size values, and length-prefixed byte strings —
deserializing its serialization returns exactly that value, through the
free functions `serialize` and `deserialize` of the consensus module. -/
theorem round_trip_law :
    (∀ (w : Nat) (bs : List Byte) (v : FixedInt w),
        deserialize bs = some v → deserialize (serialize v) = some v) ∧
    (∀ (bs : List Byte) (v : CompactSize),
        deserialize bs = some v → deserialize (serialize v) = some v) ∧
    (∀ (bs : List Byte) (v : ByteVec),
        deserialize bs = some v → deserialize (serialize v) = some v) :=
  ⟨fixedInt_roundtrip, compactSize_roundtrip, byteVec_roundtrip⟩

/-- Witness for C1: the compact-size value 520, producible by decoding the
3-byte escape form [0xFD, 0x08, 0x02], survives a serialize/deserialize
round trip. -/
theorem round_trip_law_witness :
    deserialize (serialize (CompactSize.mk 520)) = some (CompactSize.mk 520) :=
  round_trip_law.2.1 [⟨0xFD, by decide⟩, ⟨0x08, by decide⟩, ⟨0x02, by decide⟩]
    (CompactSize.mk 520) (by decide)

/-- C2: `Params.new` is a total, deterministic, side-effect-free function:
every `Network` value is one of the three variants matched exhaustively,
and for each of them the constructor returns a `Params` record with no
failure path. -/
theorem params_new_total :
    ∀ n : Network,
      (n = Network.Garlicoin ∨ n = Network.Testnet ∨ n = Network.Regtest) ∧
      ∃ p : Params, Params.new n = p := by
  intro n
  cases n with
  | Garlicoin => exact ⟨Or.inl rfl, _, rfl⟩
  | Testnet => exact ⟨Or.inr (Or.inl rfl), _, rfl⟩
  | Regtest => exact ⟨Or.inr (Or.inr rfl), _, rfl⟩

/-- C3: for every `Params` value, `difficulty_adjustment_interval` returns
exactly the unsigned integer quotient of `pow_target_timespan` by
`pow_target_spacing`, derived from the two stored fields (the `Params`
record stores no interval field). -/
theorem difficulty_adjustment_interval_derived :
    ∀ p : Params,
      p.difficulty_adjustment_interval =
        p.pow_target_timespan / p.pow_target_spacing :=
  fun _ => rfl

/-- C4: for each built-in network the timespan is an exact multiple of the
spacing, and the difficulty adjustment interval is 90 for Garlicoin, 90
for Testnet and 2016 for Regtest. -/
theorem difficulty_adjustment_interval_values :
    (∀ n : Network,
        (Params.new n).pow_target_timespan % (Params.new n).pow_target_spacing = 0) ∧
    (Params.new Network.Garlicoin).difficulty_adjustment_interval = 90 ∧
    (Params.new Network.Testnet).difficulty_adjustment_interval = 90 ∧
    (Params.new Network.Regtest).difficulty_adjustment_interval = 2016 := by
  refine ⟨fun n => ?_, by decide, by decide, by decide⟩
  cases n <;> decide

/-- C5: reading the four 64-bit limbs most-significant first, Garlicoin
and Testnet get a proof-of-work limit of 2^236 - 1 and Regtest gets
2^255 - 1. -/
theorem pow_limit_values :
    (Params.new Network.Garlicoin).pow_limit.toNat = 2 ^ 236 - 1 ∧
    (Params.new Network.Testnet).pow_limit.toNat = 2 ^ 236 - 1 ∧
    (Params.new Network.Regtest).pow_limit.toNat = 2 ^ 255 - 1 := by
  refine ⟨?_, ?_, ?_⟩ <;> decide

/-- C6: on every built-in network the soft-fork activation threshold is
exactly 75% of the miner confirmation window. -/
theorem rule_change_threshold_ratio :
    ∀ n : Network,
      4 * (Params.new n).rule_change_activation_threshold =
        3 * (Params.new n).miner_confirmation_window := by
  intro n
  cases n <;> decide

/-- C7: `no_pow_retargeting` holds exactly on Regtest and is false for
Garlicoin and Testnet. -/
theorem no_pow_retargeting_iff_regtest :
    ∀ n : Network,
      (Params.new n).no_pow_retargeting = decide (n = Network.Regtest) := by
  intro n
  cases n <;> rfl

/-- C8: the `network` field of the record returned by `Params.new n` is
`n` itself. -/
theorem params_network_roundtrip :
    ∀ n : Network, (Params.new n).network = n := by
  intro n
  cases n <;> rfl

/-- C9: the constants `MAX_BITS_BITCOIN` and `MAX_BITS_TESTNET` are
limb-for-limb identical, so Garlicoin and Testnet share one proof-of-work
floor. -/
theorem mainnet_testnet_share_pow_limit :
    MAX_BITS_BITCOIN = MAX_BITS_TESTNET ∧
    (Params.new Network.Garlicoin).pow_limit =
      (Params.new Network.Testnet).pow_limit :=
  ⟨rfl, rfl⟩

/-- C10: every constructor-produced `Params` has a strictly positive block
spacing (40, 40 and 60 seconds), so the division inside
`difficulty_adjustment_interval` never divides by zero. -/
theorem pow_target_spacing_positive :
    (∀ n : Network, 0 < (Params.new n).pow_target_spacing) ∧
    (Params.new Network.Garlicoin).pow_target_spacing = 40 ∧
    (Params.new Network.Testnet).pow_target_spacing = 40 ∧
    (Params.new Network.Regtest).pow_target_spacing = 60 := by
  refine ⟨fun n => ?_, rfl, rfl, rfl⟩
  cases n <;> decide

end Garlicoin
